import Mathlib

/-!
Shallow embedding of the `cliff` geometric-algebra library (`src/lib.rs`).

The Rust code computes over `f64`.  We model an `f64` value as `Option ℝ`:
`some r` stands for an ordinary (finite) floating-point value of exact real
magnitude `r`, and `none` stands for NaN.  The model is exact-real arithmetic
with IEEE-754 NaN propagation: every arithmetic operation returns `none` as
soon as an operand is `none`, and the partial operations (`sqrt` on negative
arguments, `acos` outside `[-1, 1]`, division by zero) return `none` exactly
where IEEE `f64` produces NaN (or, for nonzero/0, an infinity that the only
consumer of a quotient in this program, `acos`, also maps to NaN).
Rounding error and infinities are not modelled: the claims settled here are
about exact values (`0`, `1`, `π/2`) that the source's test suite also
compares with exact `==`.
-/

namespace Cliff

/-- Model of an `f64` value: `none` is NaN, `some r` an ordinary value. -/
abbrev F : Type := Option ℝ

/-- `f64` addition: NaN-propagating exact real addition. -/
def fadd : F → F → F
  | some a, some b => some (a + b)
  | _, _ => none

/-- `f64` subtraction: NaN-propagating exact real subtraction. -/
def fsub : F → F → F
  | some a, some b => some (a - b)
  | _, _ => none

/-- `f64` multiplication: NaN-propagating exact real multiplication. -/
def fmul : F → F → F
  | some a, some b => some (a * b)
  | _, _ => none

/-- `f64` unary negation (the sign flip of NaN is still NaN). -/
def fneg : F → F
  | some a => some (-a)
  | none => none

/-- Rust `f64::powi`: NaN-propagating exact real power. -/
def fpowi : F → ℕ → F
  | some a, n => some (a ^ n)
  | none, _ => none

/-- `f64` division.  IEEE gives NaN for `0/0` and `±∞` for `x/0`, `x ≠ 0`;
the model collapses both to `none`.  This is faithful for this program: its
only division feeds `acos`, which sends `±∞` (outside `[-1,1]`) to NaN too. -/
noncomputable def fdiv : F → F → F
  | some a, some b => if b = 0 then none else some (a / b)
  | _, _ => none

/-- Rust `f64::sqrt`: NaN on negative arguments, exact square root otherwise. -/
noncomputable def fsqrt : F → F
  | some a => if a < 0 then none else some (Real.sqrt a)
  | none => none

/-- Rust `f64::acos`: NaN outside `[-1, 1]`, exact `arccos` otherwise. -/
noncomputable def facos : F → F
  | some a => if a < -1 ∨ 1 < a then none else some (Real.arccos a)
  | none => none

/-- Rust `f64::sin`: exact sine (total on ordinary values, NaN-propagating). -/
noncomputable def fsin : F → F
  | some a => some (Real.sin a)
  | none => none

/-- `struct Vector { x: f64, y: f64, z: f64 }` -/
structure Vector where
  x : F
  y : F
  z : F

/-- `struct Scalar { value: f64 }` -/
structure Scalar where
  value : F

/-- `struct Bivector<'a> { x: &'a Vector, y: &'a Vector }`.  The borrowed
references are modelled as the referenced `Vector` values themselves. -/
structure Bivector where
  x : Vector
  y : Vector

/-- `struct Trivector<'a>`: declared in the source, used by no operation. -/
structure Trivector where
  x : Vector
  y : Vector
  z : Vector

/-- `Vector::new(x, y, z)`. -/
def Vector.new (x y z : F) : Vector := ⟨x, y, z⟩

/-- `Bivector::from_vectors(x, y)`. -/
def Bivector.from_vectors (x y : Vector) : Bivector := ⟨x, y⟩

/-- `impl Magnitude for Vector`:
`(self.x.powi(2) + self.y.powi(2) + self.z.powi(2)).sqrt()`. -/
noncomputable def Vector.mag (v : Vector) : F :=
  fsqrt (fadd (fadd (fpowi v.x 2) (fpowi v.y 2)) (fpowi v.z 2))

/-- `impl InnerProduct for Vector`:
`self.x * other.x + self.y * other.y + self.z * other.z`. -/
def Vector.innerp (v other : Vector) : Scalar :=
  ⟨fadd (fadd (fmul v.x other.x) (fmul v.y other.y)) (fmul v.z other.z)⟩

/-- `impl Angle for Vector`:
`(self.innerp(other).value / (self.mag() * other.mag())).acos()`. -/
noncomputable def Vector.angle (v other : Vector) : F :=
  facos (fdiv (v.innerp other).value (fmul v.mag other.mag))

/-- `impl OuterProduct for Vector`: the right-handed cross product. -/
def Vector.outerp (v other : Vector) : Vector :=
  ⟨fsub (fmul v.y other.z) (fmul v.z other.y),
   fsub (fmul v.z other.x) (fmul v.x other.z),
   fsub (fmul v.x other.y) (fmul v.y other.x)⟩

/-- `impl WedgeProduct for Vector`: `Bivector { x: self, y: other }`. -/
def Vector.wedgep (v other : Vector) : Bivector := ⟨v, other⟩

/-- `impl GeometricProduct for Vector`:
`(self.innerp(other), Bivector { x: self, y: other })`. -/
def Vector.geop (v other : Vector) : Scalar × Bivector :=
  (v.innerp other, ⟨v, other⟩)

/-- `impl Magnitude for Bivector`:
`self.x.mag() * self.y.mag() * self.x.angle(&self.y).sin()`. -/
noncomputable def Bivector.mag (bv : Bivector) : F :=
  fmul (fmul bv.x.mag bv.y.mag) (fsin (bv.x.angle bv.y))

/-- Spec-side definition for the refinement claim about `geop`: the spec says
`geop(other)` returns the pair `(innerp(self, other), wedgep(self, other))`. -/
def Vector.geop_spec (v other : Vector) : Scalar × Bivector :=
  (v.innerp other, v.wedgep other)

/-- Component-wise negation of a vector (`-outerp(b, a)` in the spec). -/
def Vector.vneg (v : Vector) : Vector := ⟨fneg v.x, fneg v.y, fneg v.z⟩

/-- The zero vector `(0, 0, 0)`. -/
def zeroV : Vector := ⟨some 0, some 0, some 0⟩

/-- The unit vector `(1, 0, 0)`. -/
def e1 : Vector := ⟨some 1, some 0, some 0⟩

/-- The unit vector `(0, 1, 0)`. -/
def e2 : Vector := ⟨some 0, some 1, some 0⟩

/-- The unit vector `(0, 0, 1)`. -/
def e3 : Vector := ⟨some 0, some 0, some 1⟩

theorem fmul_none_right (p : F) : fmul p none = none := by cases p <;> rfl

theorem fdiv_none_right (p : F) : fdiv p none = none := by cases p <;> rfl

/-- `fmul` is commutative, exactly as IEEE multiplication of ordinary values. -/
theorem fmul_commF (p q : F) : fmul p q = fmul q p := by
  cases p <;> cases q <;> simp [fmul, mul_comm]

/-- Evaluating `Vector::mag` on a vector of ordinary (non-NaN) components. -/
theorem mag_eval (x y z : ℝ) :
    Vector.mag ⟨some x, some y, some z⟩ = some (Real.sqrt (x ^ 2 + y ^ 2 + z ^ 2)) := by
  have h : ¬ (x ^ 2 + y ^ 2 + z ^ 2 < 0) := not_lt.mpr (by positivity)
  simp [Vector.mag, fpowi, fadd, fsqrt, h]

theorem mag_zeroV : Vector.mag zeroV = some 0 := by
  norm_num [zeroV, mag_eval]

theorem mag_e1 : Vector.mag e1 = some 1 := by
  norm_num [e1, mag_eval]

theorem mag_e2 : Vector.mag e2 = some 1 := by
  norm_num [e2, mag_eval]

theorem mag_e3 : Vector.mag e3 = some 1 := by
  norm_num [e3, mag_eval]

/-- Evaluating `Vector::innerp` on vectors of ordinary components. -/
theorem innerp_eval (a1 a2 a3 b1 b2 b3 : ℝ) :
    (Vector.innerp ⟨some a1, some a2, some a3⟩ ⟨some b1, some b2, some b3⟩).value =
      some (a1 * b1 + a2 * b2 + a3 * b3) := by
  simp [Vector.innerp, fmul, fadd]

/-- `Vector::angle` is NaN whenever either magnitude is zero: the division
puts a zero in the denominator, and `acos` propagates the resulting NaN. -/
theorem angle_none_of_mag_zero (a b : Vector)
    (h : a.mag = some 0 ∨ b.mag = some 0) : a.angle b = none := by
  unfold Vector.angle
  have hd : fmul a.mag b.mag = some 0 ∨ fmul a.mag b.mag = none := by
    rcases h with h | h
    · rw [h]
      cases hb : b.mag with
      | none => exact Or.inr (fmul_none_right _)
      | some m => exact Or.inl (by simp [fmul])
    · rw [h]
      cases ha : a.mag with
      | none => exact Or.inr rfl
      | some m => exact Or.inl (by simp [fmul])
  rcases hd with hd | hd <;> rw [hd]
  · cases hv : (a.innerp b).value with
    | none => rfl
    | some q => simp [fdiv, facos]
  · rw [fdiv_none_right]; rfl

/-- C1: for every pair of vectors `a`, `b`, `geop(a, b)` returns exactly the
pair `(innerp(a, b), wedgep(a, b))`: the scalar component is the plain inner
product and the bivector component is the plain wedge, with no hidden
cross-term. -/
theorem geop_decomposes (a b : Vector) : a.geop b = a.geop_spec b := rfl

/-- C8: `wedgep(self, other)` performs no numeric computation: it returns the
`Bivector` whose first stored component is `self` and whose second stored
component is `other`, in that order. -/
theorem wedgep_structural (a b : Vector) :
    a.wedgep b = Bivector.mk a b ∧ (a.wedgep b).x = a ∧ (a.wedgep b).y = b :=
  ⟨rfl, rfl, rfl⟩

/-- C4: `Vector::mag` is the Euclidean norm `sqrt(x² + y² + z²)`: it returns
`0` for the zero vector, exactly `1.0` for the unit vectors along the three
coordinate axes, and is never NaN on a vector of ordinary components. -/
theorem mag_correct :
    (∀ x y z : ℝ, Vector.mag ⟨some x, some y, some z⟩ =
        some (Real.sqrt (x ^ 2 + y ^ 2 + z ^ 2)))
    ∧ Vector.mag zeroV = some 0
    ∧ (Vector.mag e1 = some 1 ∧ Vector.mag e2 = some 1 ∧ Vector.mag e3 = some 1)
    ∧ (∀ x y z : ℝ, (Vector.mag ⟨some x, some y, some z⟩).isSome = true) :=
  ⟨mag_eval, mag_zeroV, ⟨mag_e1, mag_e2, mag_e3⟩,
    fun x y z => by rw [mag_eval]; rfl⟩

/-- C5: `Vector::outerp` is the right-handed 3D cross product
`(y1·z2 − z1·y2, z1·x2 − x1·z2, x1·y2 − y1·x2)` on every pair of vectors of
ordinary components; in particular `outerp((0,1,0), (1,0,0)) = (0,0,-1)`. -/
theorem outerp_cross :
    (∀ a1 a2 a3 b1 b2 b3 : ℝ,
      Vector.outerp ⟨some a1, some a2, some a3⟩ ⟨some b1, some b2, some b3⟩ =
        ⟨some (a2 * b3 - a3 * b2), some (a3 * b1 - a1 * b3),
         some (a1 * b2 - a2 * b1)⟩)
    ∧ Vector.outerp e2 e1 = ⟨some 0, some 0, some (-1)⟩ := by
  constructor
  · intro a1 a2 a3 b1 b2 b3
    simp [Vector.outerp, fmul, fsub]
  · norm_num [Vector.outerp, e1, e2, fmul, fsub]

/-- A symmetry of NaN-propagating multiply-subtract, used for the
anticommutativity of the cross product: both sides are NaN on exactly the
same operand patterns, and on ordinary values `p·q − r·s = −(s·r − q·p)`. -/
theorem fsub_fmul_anticomm (p q r s : F) :
    fsub (fmul p q) (fmul r s) = fneg (fsub (fmul s r) (fmul q p)) := by
  cases p <;> cases q <;> cases r <;> cases s <;> simp [fmul, fsub, fneg] <;> ring

/-- C6: the cross product is anticommutative: for every pair of vectors,
`outerp(a, b)` equals the component-wise negation of `outerp(b, a)`. -/
theorem outerp_anticommutative (a b : Vector) :
    a.outerp b = (b.outerp a).vneg := by
  simp only [Vector.outerp, Vector.vneg, Vector.mk.injEq]
  exact ⟨fsub_fmul_anticomm a.y b.z a.z b.y,
         fsub_fmul_anticomm a.z b.x a.x b.z,
         fsub_fmul_anticomm a.x b.y a.y b.x⟩

/-- C9: the inner product is exactly commutative:
`innerp(a, b).value = innerp(b, a).value` for every pair of vectors, because
each component multiplication commutes exactly and the additions are
performed in the same structural order. -/
theorem innerp_commutative (a b : Vector) :
    (a.innerp b).value = (b.innerp a).value := by
  simp only [Vector.innerp]
  rw [fmul_commF a.x b.x, fmul_commF a.y b.y, fmul_commF a.z b.z]

/-- C10: for every vector of ordinary components, `outerp(v, v)` is the zero
vector: each result component is the exact difference of two identical
products.  (The model has no overflow: components modelled by `some r` are
exactly the finite, non-overflowing inputs of the claim.) -/
theorem outerp_self_zero (x y z : ℝ) :
    Vector.outerp ⟨some x, some y, some z⟩ ⟨some x, some y, some z⟩ = zeroV := by
  simp only [Vector.outerp, zeroV, fmul, fsub, Vector.mk.injEq,
    Option.some.injEq]
  refine ⟨?_, ?_, ?_⟩ <;> ring

/-- For two vectors of magnitude `1` with inner product `0`, `Vector::angle`
evaluates to exactly `π/2`: the quotient is exactly `0` and `acos(0) = π/2`. -/
theorem angle_of_unit_orthogonal (a b : Vector) (ha : a.mag = some 1)
    (hb : b.mag = some 1) (hi : (a.innerp b).value = some 0) :
    a.angle b = some (Real.pi / 2) := by
  unfold Vector.angle
  rw [hi, ha, hb]
  norm_num [fmul, fdiv, facos, Real.arccos_zero]

/-- C3: `Vector::angle` is `acos(innerp / (mag · mag))`; a defined result
lies in `[0, π]`; it is exactly `π/2` on the orthogonal unit vectors
`(0,1,0)` and `(1,0,0)`; it is NaN when either vector has zero magnitude;
and the `acos` it uses is unguarded: on any argument outside `[-1, 1]`
(reachable in `f64` only through rounding) it returns NaN. -/
theorem angle_spec :
    (∀ a b : Vector,
      a.angle b = facos (fdiv (a.innerp b).value (fmul a.mag b.mag)))
    ∧ (∀ a b : Vector, ∀ r : ℝ, a.angle b = some r → 0 ≤ r ∧ r ≤ Real.pi)
    ∧ Vector.angle e2 e1 = some (Real.pi / 2)
    ∧ (∀ a b : Vector, a.mag = some 0 ∨ b.mag = some 0 → a.angle b = none)
    ∧ (∀ q : ℝ, q < -1 ∨ 1 < q → facos (some q) = none) := by
  refine ⟨fun a b => rfl, ?_, ?_, angle_none_of_mag_zero, ?_⟩
  · intro a b r h
    unfold Vector.angle at h
    cases hq : fdiv (a.innerp b).value (fmul a.mag b.mag) with
    | none => rw [hq] at h; simp [facos] at h
    | some s =>
      rw [hq] at h
      by_cases hc : s < -1 ∨ 1 < s
      · simp [facos, hc] at h
      · simp only [facos, if_neg hc, Option.some.injEq] at h
        rw [← h]
        exact ⟨Real.arccos_nonneg s, Real.arccos_le_pi s⟩
  · refine angle_of_unit_orthogonal e2 e1 mag_e2 mag_e1 ?_
    norm_num [e1, e2, innerp_eval]
  · intro q h
    simp [facos, h]

/-- C3 witness: the defined angle `π/2` of `(0,1,0)` and `(1,0,0)` lies in
`[0, π]`; the angle of the zero vector with `(1,0,0)` is NaN; and the
unguarded `acos` maps the out-of-range argument `2` to NaN. -/
theorem angle_spec_witness :
    (0 ≤ Real.pi / 2 ∧ Real.pi / 2 ≤ Real.pi)
    ∧ Vector.angle zeroV e1 = none ∧ facos (some 2) = none :=
  ⟨angle_spec.2.1 e2 e1 (Real.pi / 2) angle_spec.2.2.1,
   angle_spec.2.2.2.1 zeroV e1 (Or.inl mag_zeroV),
   angle_spec.2.2.2.2 2 (Or.inr (by norm_num))⟩

/-- C7 counterexample: the magnitude of the zero vector is the ordinary
value `0`, not NaN — `sqrt(0² + 0² + 0²) = 0`. -/
theorem zero_mag_counterexample :
    Vector.mag zeroV = some 0 ∧ (Vector.mag zeroV).isSome = true :=
  ⟨mag_zeroV, by rw [mag_zeroV]; rfl⟩

/-- C7 (amended): the angle of the zero vector (on either side, with any
other vector) is NaN, while the magnitude of the zero vector is the ordinary
value `0`; in both cases the result is an IEEE-754 value propagating
silently — every operation of the model is total, none throws or signals. -/
theorem zero_vector_silent :
    (∀ b : Vector, Vector.angle zeroV b = none ∧ Vector.angle b zeroV = none)
    ∧ Vector.mag zeroV = some 0 :=
  ⟨fun b => ⟨angle_none_of_mag_zero zeroV b (Or.inl mag_zeroV),
             angle_none_of_mag_zero b zeroV (Or.inr mag_zeroV)⟩,
   mag_zeroV⟩

/-- `Bivector::mag` is NaN whenever the first referenced vector is the zero
vector: `angle` is NaN there, and `0 · mag(y) · NaN` is NaN. -/
theorem bmag_none_left (y : Vector) : Bivector.mag ⟨zeroV, y⟩ = none := by
  have h := angle_none_of_mag_zero zeroV y (Or.inl mag_zeroV)
  simp only [Bivector.mag]
  rw [h]
  exact fmul_none_right _

/-- `Bivector::mag` is NaN whenever the second referenced vector is the zero
vector. -/
theorem bmag_none_right (x : Vector) : Bivector.mag ⟨x, zeroV⟩ = none := by
  have h := angle_none_of_mag_zero x zeroV (Or.inr mag_zeroV)
  simp only [Bivector.mag]
  rw [h]
  exact fmul_none_right _

/-- `Bivector::mag` on two nonzero parallel vectors `x` and `c·x` is exactly
`0`: the quotient inside `acos` is exactly `±1`, so the angle is exactly `0`
or `π`, whose exact sine is `0`. -/
theorem bmag_parallel (x1 x2 x3 c : ℝ) (hc : c ≠ 0)
    (hx : ¬(x1 = 0 ∧ x2 = 0 ∧ x3 = 0)) :
    Bivector.mag ⟨⟨some x1, some x2, some x3⟩,
      ⟨some (c * x1), some (c * x2), some (c * x3)⟩⟩ = some 0 := by
  have hS0 : (0:ℝ) ≤ x1 ^ 2 + x2 ^ 2 + x3 ^ 2 := by positivity
  have hSne : x1 ^ 2 + x2 ^ 2 + x3 ^ 2 ≠ 0 := by
    intro h0
    apply hx
    have h1 : x1 ^ 2 = 0 :=
      le_antisymm (by nlinarith [sq_nonneg x2, sq_nonneg x3]) (sq_nonneg x1)
    have h2 : x2 ^ 2 = 0 :=
      le_antisymm (by nlinarith [sq_nonneg x1, sq_nonneg x3]) (sq_nonneg x2)
    have h3 : x3 ^ 2 = 0 :=
      le_antisymm (by nlinarith [sq_nonneg x1, sq_nonneg x2]) (sq_nonneg x3)
    exact ⟨(pow_eq_zero_iff (by norm_num)).mp h1,
           (pow_eq_zero_iff (by norm_num)).mp h2,
           (pow_eq_zero_iff (by norm_num)).mp h3⟩
  set S : ℝ := x1 ^ 2 + x2 ^ 2 + x3 ^ 2 with hSdef
  have hmagx : Vector.mag ⟨some x1, some x2, some x3⟩ = some (Real.sqrt S) :=
    mag_eval x1 x2 x3
  have hmagy : Vector.mag ⟨some (c * x1), some (c * x2), some (c * x3)⟩ =
      some (|c| * Real.sqrt S) := by
    rw [mag_eval]
    congr 1
    have he : (c * x1) ^ 2 + (c * x2) ^ 2 + (c * x3) ^ 2 = c ^ 2 * S := by
      rw [hSdef]; ring
    rw [he, Real.sqrt_mul (sq_nonneg c), Real.sqrt_sq_eq_abs]
  have hinner : (Vector.innerp ⟨some x1, some x2, some x3⟩
      ⟨some (c * x1), some (c * x2), some (c * x3)⟩).value = some (c * S) := by
    rw [innerp_eval]
    congr 1
    rw [hSdef]; ring
  have hdenom : fmul (some (Real.sqrt S)) (some (|c| * Real.sqrt S)) =
      some (|c| * S) := by
    simp only [fmul, Option.some.injEq]
    calc Real.sqrt S * (|c| * Real.sqrt S)
        = |c| * (Real.sqrt S * Real.sqrt S) := by ring
      _ = |c| * S := by rw [Real.mul_self_sqrt hS0]
  have habsne : |c| * S ≠ 0 := mul_ne_zero (abs_ne_zero.mpr hc) hSne
  have hdiv : fdiv (some (c * S)) (some (|c| * S)) = some (c / |c|) := by
    simp only [fdiv, if_neg habsne, Option.some.injEq]
    rw [div_eq_div_iff habsne (abs_ne_zero.mpr hc)]
    ring
  rcases lt_or_gt_of_ne hc with hneg | hpos
  · have hq : c / |c| = -1 := by
      rw [abs_of_neg hneg, div_neg, div_self hc]
    have hangle : Vector.angle ⟨some x1, some x2, some x3⟩
        ⟨some (c * x1), some (c * x2), some (c * x3)⟩ = some Real.pi := by
      unfold Vector.angle
      rw [hinner, hmagx, hmagy, hdenom, hdiv, hq]
      norm_num [facos, Real.arccos_neg_one]
    simp only [Bivector.mag]
    rw [hmagx, hmagy, hangle]
    norm_num [fmul, fsin, Real.sin_pi]
  · have hq : c / |c| = 1 := by
      rw [abs_of_pos hpos, div_self hc]
    have hangle : Vector.angle ⟨some x1, some x2, some x3⟩
        ⟨some (c * x1), some (c * x2), some (c * x3)⟩ = some 0 := by
      unfold Vector.angle
      rw [hinner, hmagx, hmagy, hdenom, hdiv, hq]
      norm_num [facos, Real.arccos_one]
    simp only [Bivector.mag]
    rw [hmagx, hmagy, hangle]
    norm_num [fmul, fsin, Real.sin_zero]

/-- C2 counterexample: for a `Bivector` referencing the zero vector and
`(1,0,0)`, `mag` is NaN — not `0` as the claim states: the `0/0` inside
`acos` propagates. -/
theorem bmag_zero_vector_counterexample :
    Bivector.mag ⟨zeroV, e1⟩ = none ∧ (some (0:ℝ) : F).isSome = true :=
  ⟨bmag_none_left e1, rfl⟩

/-- C2 (amended): `Bivector::mag` is `mag(x) · mag(y) · sin(angle(x, y))`;
it is NaN (not `0`) when either referenced vector is the zero vector, it is
exactly `0` when the two referenced vectors are parallel and nonzero, and it
is exactly `1.0` for the Bivector built from the orthogonal unit vectors
`(1,0,0)` and `(0,1,0)`. -/
theorem bivector_mag_spec :
    (∀ bv : Bivector,
      bv.mag = fmul (fmul bv.x.mag bv.y.mag) (fsin (bv.x.angle bv.y)))
    ∧ (∀ y : Vector,
        Bivector.mag ⟨zeroV, y⟩ = none ∧ Bivector.mag ⟨y, zeroV⟩ = none)
    ∧ (∀ x1 x2 x3 c : ℝ, c ≠ 0 → ¬(x1 = 0 ∧ x2 = 0 ∧ x3 = 0) →
        Bivector.mag ⟨⟨some x1, some x2, some x3⟩,
          ⟨some (c * x1), some (c * x2), some (c * x3)⟩⟩ = some 0)
    ∧ Bivector.mag ⟨e1, e2⟩ = some 1 := by
  refine ⟨fun bv => rfl, fun y => ⟨bmag_none_left y, bmag_none_right y⟩,
    bmag_parallel, ?_⟩
  have hangle : Vector.angle e1 e2 = some (Real.pi / 2) := by
    refine angle_of_unit_orthogonal e1 e2 mag_e1 mag_e2 ?_
    norm_num [e1, e2, innerp_eval]
  simp only [Bivector.mag]
  rw [mag_e1, mag_e2, hangle]
  norm_num [fmul, fsin, Real.sin_pi_div_two]

/-- C2 witness: the parallel pair `(1,0,0)` and `2·(1,0,0)` has Bivector
magnitude exactly `0`. -/
theorem bivector_mag_spec_witness :
    Bivector.mag ⟨⟨some 1, some 0, some 0⟩,
      ⟨some (2 * 1), some (2 * 0), some (2 * 0)⟩⟩ = some 0 :=
  bivector_mag_spec.2.2.1 1 0 0 2 (by norm_num) (by norm_num)

end Cliff
